/-
Verification of the catheter_ukf repository: a shallow embedding of the
manifold state algebra (statespace.py), the unscented transform
(unscented.py), the Riemannian UKF core (riemannian_ukf.py) and the filter
facade (ukf.py) over the real numbers, together with proofs of the
specification's claims about them.

Numpy arrays of length 3 are modelled as `Fin 3 → ℝ`; length-18 state
vectors as a six-field record of 3-vectors (the source's
`pack_*_state`/`unpack_state` pair is the evident bijection, embedded as
`stateToVec`/`vecToState`); matrices as Mathlib matrices over ℝ.
Floating-point arithmetic is idealised as real arithmetic, so the spec's
"up to numerical error" becomes exact equality, and `numpy.isclose(s, 0)`
becomes `s = 0`.
-/
import Mathlib

open scoped Classical Matrix

namespace CatheterUKF

/-- 3-vectors, as numpy arrays of length 3. -/
abbrev Vec3 := Fin 3 → ℝ

/-- `numpy.dot` on 3-vectors. -/
def dot (a b : Vec3) : ℝ := a 0 * b 0 + a 1 * b 1 + a 2 * b 2

/-- `numpy.cross` on 3-vectors. -/
def cross (a b : Vec3) : Vec3 :=
  ![a 1 * b 2 - a 2 * b 1, a 2 * b 0 - a 0 * b 2, a 0 * b 1 - a 1 * b 0]

/-- `numpy.linalg.norm(v, ord=2)`. -/
noncomputable def norm (v : Vec3) : ℝ := Real.sqrt (dot v v)

-- Basic algebraic facts about `dot`, `cross` and `norm`.

theorem dot_comm (a b : Vec3) : dot a b = dot b a := by
  simp only [dot]; ring

theorem dot_nonneg (v : Vec3) : 0 ≤ dot v v := by
  simp only [dot]
  nlinarith [sq_nonneg (v 0), sq_nonneg (v 1), sq_nonneg (v 2)]

theorem dot_self_eq_zero_iff (v : Vec3) : dot v v = 0 ↔ v = 0 := by
  constructor
  · intro h
    simp only [dot] at h
    have h0 : v 0 = 0 := by nlinarith [sq_nonneg (v 0), sq_nonneg (v 1), sq_nonneg (v 2)]
    have h1 : v 1 = 0 := by nlinarith [sq_nonneg (v 0), sq_nonneg (v 1), sq_nonneg (v 2)]
    have h2 : v 2 = 0 := by nlinarith [sq_nonneg (v 0), sq_nonneg (v 1), sq_nonneg (v 2)]
    funext i
    fin_cases i
    · exact h0
    · exact h1
    · exact h2
  · intro h; subst h; simp [dot]

theorem norm_nonneg (v : Vec3) : 0 ≤ norm v := Real.sqrt_nonneg _

theorem norm_eq_zero_iff (v : Vec3) : norm v = 0 ↔ v = 0 := by
  rw [norm, Real.sqrt_eq_zero (dot_nonneg v), dot_self_eq_zero_iff]

theorem norm_pos (v : Vec3) (hv : v ≠ 0) : 0 < norm v := by
  rcases lt_or_eq_of_le (norm_nonneg v) with h | h
  · exact h
  · exact absurd ((norm_eq_zero_iff v).mp h.symm) hv

theorem sq_norm (v : Vec3) : norm v ^ 2 = dot v v := Real.sq_sqrt (dot_nonneg v)

/-- Extensionality for 3-vectors at the literal indices. -/
theorem vec3_ext {a b : Vec3} (h0 : a 0 = b 0) (h1 : a 1 = b 1) (h2 : a 2 = b 2) :
    a = b := by
  funext i
  fin_cases i
  · exact h0
  · exact h1
  · exact h2

theorem norm_smul (c : ℝ) (v : Vec3) : norm (c • v) = |c| * norm v := by
  simp only [norm, dot, Pi.smul_apply, smul_eq_mul]
  rw [show c * v 0 * (c * v 0) + c * v 1 * (c * v 1) + c * v 2 * (c * v 2)
      = c ^ 2 * (v 0 * v 0 + v 1 * v 1 + v 2 * v 2) by ring,
    Real.sqrt_mul (sq_nonneg c), Real.sqrt_sq_eq_abs]

-- Componentwise cross-product identities (polynomial, proved by `ring`).

theorem cross_apply_zero (a b : Vec3) : cross a b 0 = a 1 * b 2 - a 2 * b 1 := rfl

theorem cross_apply_one (a b : Vec3) : cross a b 1 = a 2 * b 0 - a 0 * b 2 := rfl

theorem cross_apply_two (a b : Vec3) : cross a b 2 = a 0 * b 1 - a 1 * b 0 := rfl

theorem cross_zero_right (a : Vec3) : cross a 0 = 0 := by
  funext i
  fin_cases i <;> simp [cross]

theorem cross_smul_right (c : ℝ) (a b : Vec3) : cross a (c • b) = c • cross a b := by
  funext i
  fin_cases i <;> · simp [cross]; ring

theorem cross_smul_left (c : ℝ) (a b : Vec3) : cross (c • a) b = c • cross a b := by
  funext i
  fin_cases i <;> · simp [cross]; ring

theorem dot_cross_left (a b : Vec3) : dot (cross a b) a = 0 := by
  simp only [dot, cross_apply_zero, cross_apply_one, cross_apply_two]; ring

theorem dot_cross_right (a b : Vec3) : dot (cross a b) b = 0 := by
  simp only [dot, cross_apply_zero, cross_apply_one, cross_apply_two]; ring

/-- Lagrange's identity for the squared norm of a cross product. -/
theorem dot_cross_self (a b : Vec3) :
    dot (cross a b) (cross a b) = dot a a * dot b b - dot a b ^ 2 := by
  simp only [dot, cross_apply_zero, cross_apply_one, cross_apply_two]; ring

/-- Triple-product expansion `(a × b) × a = (a·a) b − (a·b) a`. -/
theorem cross_cross_cancel (a b : Vec3) :
    cross (cross a b) a = dot a a • b - dot a b • a := by
  funext i
  fin_cases i <;>
    · simp [cross, dot, Pi.smul_apply, Pi.sub_apply]; ring

theorem dot_smul_left (c : ℝ) (a b : Vec3) : dot (c • a) b = c * dot a b := by
  simp only [dot, Pi.smul_apply, smul_eq_mul]; ring

theorem dot_smul_right (c : ℝ) (a b : Vec3) : dot a (c • b) = c * dot a b := by
  simp only [dot, Pi.smul_apply, smul_eq_mul]; ring

theorem dot_sub_left (a b c : Vec3) : dot (a - b) c = dot a c - dot b c := by
  simp only [dot, Pi.sub_apply]; ring

theorem dot_add_left (a b c : Vec3) : dot (a + b) c = dot a c + dot b c := by
  simp only [dot, Pi.add_apply]; ring

theorem dot_sub_right (a b c : Vec3) : dot a (b - c) = dot a b - dot a c := by
  simp only [dot, Pi.sub_apply]; ring

theorem dot_add_right (a b c : Vec3) : dot a (b + c) = dot a b + dot a c := by
  simp only [dot, Pi.add_apply]; ring

/-- Squared norm of a three-term combination, expanded by bilinearity. -/
theorem dot_comb3 (p q r : Vec3) (a b c : ℝ) :
    dot (a • p + b • q + c • r) (a • p + b • q + c • r) =
      a ^ 2 * dot p p + b ^ 2 * dot q q + c ^ 2 * dot r r +
        2 * (a * b) * dot p q + 2 * (a * c) * dot p r + 2 * (b * c) * dot q r := by
  simp only [dot, Pi.add_apply, Pi.smul_apply, smul_eq_mul]; ring

theorem cross_self (a : Vec3) : cross a a = 0 := by
  funext i
  fin_cases i <;> · simp [cross]; ring

theorem norm_neg (v : Vec3) : norm (-v) = norm v := by
  rw [show -v = (-1 : ℝ) • v by funext i; simp, norm_smul]
  norm_num

/-- The Rodrigues rotation formula: the action on `p` of the rotation with
axis `n` (a unit vector), cosine `cθ` and sine `sθ` of the rotation angle.
`quaternion.as_rotation_matrix(quaternion.from_rotation_vector(x))` is this
matrix with `n = x/‖x‖`, `cθ = cos ‖x‖`, `sθ = sin ‖x‖`. -/
def rotAux (cθ sθ : ℝ) (n p : Vec3) : Vec3 :=
  cθ • p + sθ • cross n p + ((1 - cθ) * dot n p) • n

/-- The rotation-vector rotation of `statespace.Rot`, as its action on a
vector: `rotApply c p = as_rotation_matrix(from_rotation_vector(c)) @ p`.
For `c = 0` the rotation is the identity. -/
noncomputable def rotApply (c p : Vec3) : Vec3 :=
  if norm c = 0 then p else
    rotAux (Real.cos (norm c)) (Real.sin (norm c)) ((norm c)⁻¹ • c) p

theorem rotAux_neg_axis (cθ sθ : ℝ) (n p : Vec3) :
    rotAux cθ sθ (-n) p = rotAux cθ (-sθ) n p := by
  funext i
  fin_cases i <;>
    · simp [rotAux, cross, dot, Pi.add_apply, Pi.smul_apply, Pi.neg_apply]
      ring

theorem cross_n_rotAux (cθ sθ : ℝ) (n p : Vec3) (hn : dot n n = 1) :
    cross n (rotAux cθ (-sθ) n p) =
      cθ • cross n p + (-(sθ * dot n p)) • n + sθ • p := by
  simp only [dot] at hn
  refine vec3_ext ?_ ?_ ?_
  · simp only [rotAux, cross, dot, Pi.add_apply, Pi.smul_apply, smul_eq_mul,
      Matrix.cons_val_zero, Matrix.cons_val_one, Matrix.head_cons,
      Matrix.cons_val_two, Matrix.tail_cons]
    linear_combination (sθ * p 0) * hn
  · simp only [rotAux, cross, dot, Pi.add_apply, Pi.smul_apply, smul_eq_mul,
      Matrix.cons_val_zero, Matrix.cons_val_one, Matrix.head_cons,
      Matrix.cons_val_two, Matrix.tail_cons]
    linear_combination (sθ * p 1) * hn
  · simp only [rotAux, cross, dot, Pi.add_apply, Pi.smul_apply, smul_eq_mul,
      Matrix.cons_val_zero, Matrix.cons_val_one, Matrix.head_cons,
      Matrix.cons_val_two, Matrix.tail_cons]
    linear_combination (sθ * p 2) * hn

theorem dot_n_rotAux (cθ sθ : ℝ) (n p : Vec3) (hn : dot n n = 1) :
    dot n (rotAux cθ (-sθ) n p) = dot n p := by
  simp only [dot] at hn
  simp only [rotAux, cross, dot, Pi.add_apply, Pi.smul_apply, smul_eq_mul,
    Matrix.cons_val_zero, Matrix.cons_val_one, Matrix.head_cons,
    Matrix.cons_val_two, Matrix.tail_cons]
  linear_combination ((1 - cθ) * (n 0 * p 0 + n 1 * p 1 + n 2 * p 2)) * hn

/-- A Rodrigues rotation composed with the rotation about the same axis by
the opposite angle is the identity. -/
theorem rotAux_comp (cθ sθ : ℝ) (n p : Vec3) (hn : dot n n = 1)
    (hc : cθ ^ 2 + sθ ^ 2 = 1) :
    rotAux cθ sθ n (rotAux cθ (-sθ) n p) = p := by
  have h1 := cross_n_rotAux cθ sθ n p hn
  have h2 := dot_n_rotAux cθ sθ n p hn
  rw [show rotAux cθ sθ n (rotAux cθ (-sθ) n p) =
      cθ • (rotAux cθ (-sθ) n p) + sθ • cross n (rotAux cθ (-sθ) n p) +
        ((1 - cθ) * dot n (rotAux cθ (-sθ) n p)) • n from rfl, h1, h2]
  simp only [rotAux]
  refine vec3_ext ?_ ?_ ?_
  · simp only [Pi.add_apply, Pi.smul_apply, smul_eq_mul, Pi.neg_apply,
      neg_smul, neg_mul]
    linear_combination (p 0 - dot n p * n 0) * hc
  · simp only [Pi.add_apply, Pi.smul_apply, smul_eq_mul, Pi.neg_apply,
      neg_smul, neg_mul]
    linear_combination (p 1 - dot n p * n 1) * hc
  · simp only [Pi.add_apply, Pi.smul_apply, smul_eq_mul, Pi.neg_apply,
      neg_smul, neg_mul]
    linear_combination (p 2 - dot n p * n 2) * hc

/-- A Rodrigues rotation preserves the squared norm. -/
theorem rotAux_dot_self (cθ sθ : ℝ) (n p : Vec3) (hn : dot n n = 1)
    (hc : cθ ^ 2 + sθ ^ 2 = 1) :
    dot (rotAux cθ sθ n p) (rotAux cθ sθ n p) = dot p p := by
  have h := dot_comb3 p (cross n p) n cθ sθ ((1 - cθ) * dot n p)
  rw [show rotAux cθ sθ n p =
      cθ • p + sθ • cross n p + ((1 - cθ) * dot n p) • n from rfl, h,
    dot_comm p (cross n p), dot_cross_right, dot_cross_left, dot_cross_self,
    dot_comm p n, hn]
  linear_combination (dot p p - dot n p ^ 2) * hc

/-- The unit axis used by `rotApply` when the rotation vector is nonzero. -/
theorem axis_dot_self (c : Vec3) (hc : norm c ≠ 0) :
    dot ((norm c)⁻¹ • c) ((norm c)⁻¹ • c) = 1 := by
  rw [dot_smul_left, dot_smul_right, ← sq_norm]
  field_simp
  ring

theorem rotApply_dot_self (c p : Vec3) :
    dot (rotApply c p) (rotApply c p) = dot p p := by
  rw [rotApply]
  split_ifs with h
  · rfl
  · exact rotAux_dot_self _ _ _ _ (axis_dot_self c h)
      (by rw [Real.cos_sq_add_sin_sq])

/-- Composing the Rodrigues rotation of `-c` with that of `c` gives the
identity: rotation vectors `c` and `-c` produce mutually inverse rotations. -/
theorem rotApply_rotApply_neg (c y : Vec3) : rotApply c (rotApply (-c) y) = y := by
  by_cases h : norm c = 0
  · have h' : norm (-c) = 0 := by rw [norm_neg]; exact h
    rw [show rotApply (-c) y = y from if_pos h',
      show rotApply c y = y from if_pos h]
  · have h' : norm (-c) ≠ 0 := by rw [norm_neg]; exact h
    rw [show rotApply (-c) y =
        rotAux (Real.cos (norm (-c))) (Real.sin (norm (-c)))
          ((norm (-c))⁻¹ • (-c)) y from if_neg h',
      show (norm (-c))⁻¹ • (-c) = -((norm (-c))⁻¹ • c) by
        funext i; simp [Pi.neg_apply, Pi.smul_apply],
      norm_neg, rotAux_neg_axis,
      show rotApply c (rotAux (Real.cos (norm c)) (-Real.sin (norm c))
          ((norm c)⁻¹ • c) y) =
        rotAux (Real.cos (norm c)) (Real.sin (norm c)) ((norm c)⁻¹ • c)
          (rotAux (Real.cos (norm c)) (-Real.sin (norm c))
            ((norm c)⁻¹ • c) y) from if_neg h]
    exact rotAux_comp _ _ _ _ (axis_dot_self c h) (by rw [Real.cos_sq_add_sin_sq])

-- ---------------------------------------------------------------------------
-- The manifold state algebra of `statespace.py`.

/-- `statespace.Exp(base, v) = Rot(base, v) @ base`. -/
noncomputable def Exp (base v : Vec3) : Vec3 := rotApply (cross base v) base

/-- `statespace.Log(base, p)`: project `p` into the tangent plane at `base`
and rescale by `arcsin(s)/s`; `numpy.isclose(s, 0)` is idealised to `s = 0`. -/
noncomputable def Log (base p : Vec3) : Vec3 :=
  let v := cross (cross base p) base
  if norm v = 0 then 0 else (Real.arcsin (norm v) / norm v) • v

/-- Models `numpy.linalg.solve(Rot(...), y)` — the exact solution of the
linear system `R y' = y` for the Rodrigues rotation `R` with rotation
vector `c` — as the inverse rotation, the one with rotation vector `-c`
(validated by `rotApply_rotApply_neg`). -/
noncomputable def rotSolve (c y : Vec3) : Vec3 := rotApply (-c) y

/-- An 18-parameter state `(x, v, a, q, w, u)` of six 3-vectors. -/
@[ext] structure State where
  x : Vec3
  v : Vec3
  a : Vec3
  q : Vec3
  w : Vec3
  u : Vec3

/-- `statespace.pack_global_state`: project onto the manifold (normalise
`q`, remove the `q`-components of `w` and `u`) and pack. -/
noncomputable def packGlobal (x v a q w u : Vec3) : State :=
  let qn := (norm q)⁻¹ • q
  ⟨x, v, a, qn, w - dot w qn • qn, u - dot u qn • qn⟩

/-- `statespace.evolve_state`. -/
noncomputable def evolveState (s : State) (dt : ℝ) : State :=
  let R := cross s.q (dt • s.w + (0.5 * dt * dt) • s.u)
  packGlobal (s.x + dt • s.v + (0.5 * dt * dt) • s.a) (s.v + dt • s.a) s.a
    (rotApply R s.q) (rotApply R (s.w + dt • s.u)) (rotApply R s.u)

/-- `statespace.global_to_local` (local packing performs no projection). -/
noncomputable def globalToLocal (base g : State) : State :=
  let lq := Log base.q g.q
  let R := cross base.q lq
  ⟨g.x - base.x, g.v - base.v, g.a - base.a, lq,
    rotSolve R g.w - base.w, rotSolve R g.u - base.u⟩

/-- `statespace.local_to_global`. -/
noncomputable def localToGlobal (base l : State) : State :=
  let R := cross base.q l.q
  packGlobal (base.x + l.x) (base.v + l.v) (base.a + l.a)
    (rotApply R base.q) (rotApply R (base.w + l.w)) (rotApply R (base.u + l.u))

/-- `statespace.pack_observation`: the two coil positions, concatenated. -/
def packObservation (a b : Vec3) : Fin 6 → ℝ := ![a 0, a 1, a 2, b 0, b 1, b 2]

/-- `statespace.observe_state`. -/
def observeState (s : State) (coil_offset : ℝ) : Fin 6 → ℝ :=
  packObservation (s.x + coil_offset • s.q) (s.x - coil_offset • s.q)

/-- `statespace.tip_from_state`. -/
def tipFromState (s : State) (tip_offset : ℝ) : Vec3 := s.x + tip_offset • s.q

theorem dot_sub_smul (p b : Vec3) (t : ℝ) :
    dot (p - t • b) (p - t • b) = dot p p - 2 * t * dot b p + t ^ 2 * dot b b := by
  simp only [dot, Pi.sub_apply, Pi.smul_apply, smul_eq_mul]; ring

/-- The manifold invariants of §3 of the spec: `q` is a unit vector and
`w`, `u` are tangent at `q`. -/
noncomputable def onManifold (s : State) : Prop :=
  norm s.q = 1 ∧ dot s.w s.q = 0 ∧ dot s.u s.q = 0

/-- Global packing puts any state with a nonzero direction onto the
manifold. -/
theorem packGlobal_onManifold (x v a q w u : Vec3) (hq : q ≠ 0) :
    onManifold (packGlobal x v a q w u) := by
  have hn : norm q ≠ 0 := ne_of_gt (norm_pos q hq)
  have hq1 : norm ((norm q)⁻¹ • q) = 1 := by
    rw [norm_smul, abs_inv, abs_of_nonneg (norm_nonneg q)]
    field_simp
  have hdq : dot ((norm q)⁻¹ • q) ((norm q)⁻¹ • q) = 1 := axis_dot_self q hn
  refine ⟨hq1, ?_, ?_⟩
  · show dot (w - dot w ((norm q)⁻¹ • q) • (norm q)⁻¹ • q) ((norm q)⁻¹ • q) = 0
    rw [dot_sub_left, dot_smul_left, hdq]; ring
  · show dot (u - dot u ((norm q)⁻¹ • q) • (norm q)⁻¹ • q) ((norm q)⁻¹ • q) = 0
    rw [dot_sub_left, dot_smul_left, hdq]; ring

/-- On the open hemisphere around a unit base point, `Exp` inverts `Log`. -/
theorem Exp_Log (b p : Vec3) (hb : dot b b = 1) (hp : dot p p = 1)
    (hbp : 0 < dot b p) : Exp b (Log b p) = p := by
  have hv : cross (cross b p) b = p - dot b p • b := by
    rw [cross_cross_cancel, hb, one_smul]
  have hvv : dot (cross (cross b p) b) (cross (cross b p) b)
      = 1 - dot b p ^ 2 := by
    rw [hv, dot_sub_smul, hp, hb, dot_comm b p]; ring
  by_cases hs : norm (cross (cross b p) b) = 0
  · -- `p` is the base point itself; `Log` returns `0` and `Exp b 0 = b`.
    have hv0 : cross (cross b p) b = 0 := (norm_eq_zero_iff _).mp hs
    have hpb : p = dot b p • b := by
      have h0 : p - dot b p • b = 0 := by rw [← hv, hv0]
      have := sub_eq_zero.mp h0
      exact this
    have ht2 : dot b p ^ 2 = 1 := by
      have h1 := hp
      nth_rewrite 1 [hpb] at h1
      nth_rewrite 2 [hpb] at h1
      rw [dot_smul_left, dot_smul_right, hb] at h1
      nlinarith
    have ht1 : dot b p = 1 := by
      have h0 : (dot b p - 1) * (dot b p + 1) = 0 := by linear_combination ht2
      rcases mul_eq_zero.mp h0 with h | h
      · linarith
      · linarith
    have hlog : Log b p = 0 := by
      simp only [Log]
      rw [if_pos hs]
    rw [Exp, hlog, cross_zero_right,
      show rotApply 0 b = b from if_pos ((norm_eq_zero_iff 0).mpr rfl)]
    rw [hpb, ht1, one_smul]
  · -- generic branch: the rotation by `arcsin s` about `b × v` carries `b`
    -- to `p`.
    have hs' : 0 < norm (cross (cross b p) b) :=
      lt_of_le_of_ne (norm_nonneg _) (Ne.symm hs)
    have hss : norm (cross (cross b p) b) ^ 2 = 1 - dot b p ^ 2 := by
      rw [sq_norm]; exact hvv
    have hs1 : norm (cross (cross b p) b) < 1 := by nlinarith
    have hsle : norm (cross (cross b p) b) ≤ 1 := le_of_lt hs1
    have hsneg : (-1 : ℝ) ≤ norm (cross (cross b p) b) := by linarith
    have ha_pos : 0 < Real.arcsin (norm (cross (cross b p) b)) :=
      Real.arcsin_pos.mpr hs'
    have ha_ne : Real.arcsin (norm (cross (cross b p) b)) ≠ 0 := ne_of_gt ha_pos
    have hlog : Log b p =
        (Real.arcsin (norm (cross (cross b p) b)) / norm (cross (cross b p) b)) •
          cross (cross b p) b := by
      simp only [Log]
      rw [if_neg hs]
    have hbv : dot b (cross (cross b p) b) = 0 := by
      rw [hv, dot_sub_right, dot_smul_right, hb, dot_comm b p]; ring
    have hcbv : dot (cross b (cross (cross b p) b)) (cross b (cross (cross b p) b))
        = norm (cross (cross b p) b) ^ 2 := by
      rw [dot_cross_self, hb, hbv, sq_norm]; ring
    have hncbv : norm (cross b (cross (cross b p) b)) = norm (cross (cross b p) b) := by
      rw [norm, hcbv, Real.sqrt_sq (le_of_lt hs')]
    have hcb : cross b (Log b p) =
        (Real.arcsin (norm (cross (cross b p) b)) / norm (cross (cross b p) b)) •
          cross b (cross (cross b p) b) := by
      rw [hlog, cross_smul_right]
    have hnorm2 : norm
        ((Real.arcsin (norm (cross (cross b p) b)) / norm (cross (cross b p) b)) •
          cross b (cross (cross b p) b)) =
        Real.arcsin (norm (cross (cross b p) b)) := by
      rw [norm_smul, hncbv, abs_of_pos (div_pos ha_pos hs')]
      field_simp
    have hnne : norm
        ((Real.arcsin (norm (cross (cross b p) b)) / norm (cross (cross b p) b)) •
          cross b (cross (cross b p) b)) ≠ 0 := by
      rw [hnorm2]; exact ha_ne
    have haxis : (norm
        ((Real.arcsin (norm (cross (cross b p) b)) / norm (cross (cross b p) b)) •
          cross b (cross (cross b p) b)))⁻¹ •
        ((Real.arcsin (norm (cross (cross b p) b)) / norm (cross (cross b p) b)) •
          cross b (cross (cross b p) b)) =
        (norm (cross (cross b p) b))⁻¹ • cross b (cross (cross b p) b) := by
      rw [hnorm2, smul_smul]
      congr 1
      field_simp
    rw [Exp, hcb]
    simp only [rotApply]
    rw [if_neg hnne, haxis, hnorm2,
      Real.sin_arcsin hsneg hsle, Real.cos_arcsin,
      show 1 - norm (cross (cross b p) b) ^ 2 = dot b p ^ 2 by linarith,
      Real.sqrt_sq (le_of_lt hbp)]
    simp only [rotAux]
    have hccb : cross (cross b (cross (cross b p) b)) b = cross (cross b p) b := by
      rw [cross_cross_cancel, hb, hbv, one_smul, zero_smul, sub_zero]
    rw [cross_smul_left, hccb, dot_smul_left,
      show dot (cross b (cross (cross b p) b)) b = 0 from dot_cross_left _ _,
      smul_smul, mul_inv_cancel₀ (ne_of_gt hs'), one_smul, hv]
    rw [mul_zero, mul_zero, zero_smul, add_zero]
    abel

theorem add_sub_self_vec (α β : Vec3) : α + (β - α) = β := by abel

theorem dot_self_of_norm_one {v : Vec3} (h : norm v = 1) : dot v v = 1 := by
  rw [← sq_norm, h]; norm_num

/-- Packing a state that is already on the manifold changes nothing. -/
theorem packGlobal_of_onManifold (g : State) (h : onManifold g) :
    packGlobal g.x g.v g.a g.q g.w g.u = g := by
  obtain ⟨h1, h2, h3⟩ := h
  simp only [packGlobal, h1, inv_one, one_smul]
  refine State.ext rfl rfl rfl rfl ?_ ?_
  · show g.w - dot g.w g.q • g.q = g.w
    rw [h2, zero_smul, sub_zero]
  · show g.u - dot g.u g.q • g.q = g.u
    rw [h3, zero_smul, sub_zero]

/-- C1: for every on-manifold base state `b` and on-manifold global state
`g` whose direction lies in the open hemisphere around `b.q`,
`local_to_global(b, global_to_local(b, g)) = g` (exactly, in the real-number
idealisation). -/
theorem claim_C1_localGlobal_roundtrip (b g : State)
    (hbm : onManifold b) (hgm : onManifold g) (hem : 0 < dot b.q g.q) :
    localToGlobal b (globalToLocal b g) = g := by
  obtain ⟨hbq, hbw, hbu⟩ := hbm
  obtain ⟨hgq, hgw, hgu⟩ := hgm
  have hq : rotApply (cross b.q (Log b.q g.q)) b.q = g.q :=
    Exp_Log b.q g.q (dot_self_of_norm_one hbq) (dot_self_of_norm_one hgq) hem
  simp only [localToGlobal, globalToLocal, rotSolve]
  simp only [add_sub_self_vec]
  rw [hq, rotApply_rotApply_neg, rotApply_rotApply_neg]
  exact packGlobal_of_onManifold g ⟨hgq, hgw, hgu⟩

/-- C1 witness: a concrete on-manifold pair within the hemisphere where the
round trip recovers the global state. -/
theorem claim_C1_witness :
    onManifold ⟨0, 0, 0, ![1, 0, 0], ![0, 1, 0], 0⟩ ∧
    onManifold ⟨![1, 2, 3], 0, 0, ![3/5, 4/5, 0], ![-4/5, 3/5, 0], 0⟩ ∧
    0 < dot (![1, 0, 0] : Vec3) ![3/5, 4/5, 0] ∧
    localToGlobal ⟨0, 0, 0, ![1, 0, 0], ![0, 1, 0], 0⟩
        (globalToLocal ⟨0, 0, 0, ![1, 0, 0], ![0, 1, 0], 0⟩
          ⟨![1, 2, 3], 0, 0, ![3/5, 4/5, 0], ![-4/5, 3/5, 0], 0⟩) =
      ⟨![1, 2, 3], 0, 0, ![3/5, 4/5, 0], ![-4/5, 3/5, 0], 0⟩ := by
  have hb : onManifold ⟨0, 0, 0, ![1, 0, 0], ![0, 1, 0], 0⟩ := by
    refine ⟨?_, ?_, ?_⟩
    · show norm ![1, 0, 0] = 1
      rw [norm, show dot ![1, 0, 0] ![1, 0, 0] = 1 by norm_num [dot],
        Real.sqrt_one]
    · norm_num [dot]
    · norm_num [dot]
  have hg : onManifold ⟨![1, 2, 3], 0, 0, ![3/5, 4/5, 0], ![-4/5, 3/5, 0], 0⟩ := by
    refine ⟨?_, ?_, ?_⟩
    · show norm ![3/5, 4/5, 0] = 1
      rw [norm, show dot ![3/5, 4/5, 0] ![3/5, 4/5, 0] = 1 by norm_num [dot],
        Real.sqrt_one]
    · norm_num [dot]
    · norm_num [dot]
  have hem : 0 < dot (![1, 0, 0] : Vec3) ![3/5, 4/5, 0] := by norm_num [dot]
  exact ⟨hb, hg, hem, claim_C1_localGlobal_roundtrip _ _ hb hg hem⟩

/-- C4: for unit vectors `b` and `p` at angle strictly between `0` and
`π/2`, `Log b p` is tangent at `b` with norm `arccos (b·p)`; and whenever
the tangent-plane projection of `p` has zero norm, `Log` returns `0`. -/
theorem claim_C4_Log_geodesic (b p : Vec3) (hb : norm b = 1) (hp : norm p = 1)
    (h1 : 0 < Real.arccos (dot b p)) (h2 : Real.arccos (dot b p) < Real.pi / 2) :
    dot (Log b p) b = 0 ∧ norm (Log b p) = Real.arccos (dot b p) ∧
      ∀ b' p' : Vec3, norm (cross (cross b' p') b') = 0 → Log b' p' = 0 := by
  have hb' := dot_self_of_norm_one hb
  have hp' := dot_self_of_norm_one hp
  have ht0 : 0 < dot b p := Real.arccos_lt_pi_div_two.mp h2
  have ht1 : dot b p < 1 := Real.arccos_pos.mp h1
  have hv : cross (cross b p) b = p - dot b p • b := by
    rw [cross_cross_cancel, hb', one_smul]
  have hvv : dot (cross (cross b p) b) (cross (cross b p) b)
      = 1 - dot b p ^ 2 := by
    rw [hv, dot_sub_smul, hp', hb', dot_comm b p]; ring
  have hss : norm (cross (cross b p) b) ^ 2 = 1 - dot b p ^ 2 := by
    rw [sq_norm]; exact hvv
  have hspos : 0 < norm (cross (cross b p) b) := by
    rcases lt_or_eq_of_le (norm_nonneg (cross (cross b p) b)) with h | h
    · exact h
    · nlinarith
  have hs : norm (cross (cross b p) b) ≠ 0 := ne_of_gt hspos
  have hlog : Log b p =
      (Real.arcsin (norm (cross (cross b p) b)) / norm (cross (cross b p) b)) •
        cross (cross b p) b := by
    simp only [Log]; rw [if_neg hs]
  have ha_pos : 0 < Real.arcsin (norm (cross (cross b p) b)) :=
    Real.arcsin_pos.mpr hspos
  refine ⟨?_, ?_, ?_⟩
  · rw [hlog, dot_smul_left, dot_cross_right, mul_zero]
  · rw [hlog, norm_smul, abs_of_pos (div_pos ha_pos hspos),
      div_mul_cancel₀ _ hs, Real.arccos_eq_arcsin (le_of_lt ht0)]
    congr 1
    rw [norm, hvv]
  · intro b' p' h
    simp only [Log]
    rw [if_pos h]

/-- C4 witness: `b = e₁`, `p = (3/5, 4/5, 0)` satisfies the hypotheses. -/
theorem claim_C4_witness :
    norm (![1, 0, 0] : Vec3) = 1 ∧ norm (![3/5, 4/5, 0] : Vec3) = 1 ∧
    0 < Real.arccos (dot ![1, 0, 0] ![3/5, 4/5, 0]) ∧
    Real.arccos (dot ![1, 0, 0] ![3/5, 4/5, 0]) < Real.pi / 2 ∧
    (dot (Log ![1, 0, 0] ![3/5, 4/5, 0]) ![1, 0, 0] = 0 ∧
      norm (Log ![1, 0, 0] ![3/5, 4/5, 0]) =
        Real.arccos (dot ![1, 0, 0] ![3/5, 4/5, 0]) ∧
      ∀ b' p' : Vec3, norm (cross (cross b' p') b') = 0 → Log b' p' = 0) := by
  have hb : norm (![1, 0, 0] : Vec3) = 1 := by
    rw [norm, show dot ![1, 0, 0] ![1, 0, 0] = 1 by norm_num [dot], Real.sqrt_one]
  have hp : norm (![3/5, 4/5, 0] : Vec3) = 1 := by
    rw [norm, show dot ![3/5, 4/5, 0] ![3/5, 4/5, 0] = 1 by norm_num [dot],
      Real.sqrt_one]
  have h1 : 0 < Real.arccos (dot ![1, 0, 0] ![3/5, 4/5, 0]) := by
    rw [Real.arccos_pos, show dot ![1, 0, 0] ![3/5, 4/5, 0] = 3/5 by
      norm_num [dot]]
    norm_num
  have h2 : Real.arccos (dot ![1, 0, 0] ![3/5, 4/5, 0]) < Real.pi / 2 := by
    rw [Real.arccos_lt_pi_div_two, show dot ![1, 0, 0] ![3/5, 4/5, 0] = 3/5 by
      norm_num [dot]]
    norm_num
  exact ⟨hb, hp, h1, h2, claim_C4_Log_geodesic _ _ hb hp h1 h2⟩

/-- C9: `observe_state` returns the 6-vector whose first three components
are `x + coil_offset·q` (the distal, tip-side coil) and last three are
`x − coil_offset·q` (the proximal coil); in particular, with
`coil_offset = 1`, `x = (1,2,3)`, `q = e₁` it returns `(2,2,3, 0,2,3)`. -/
theorem claim_C9_observe :
    (∀ (s : State) (co : ℝ),
      observeState s co 0 = s.x 0 + co * s.q 0 ∧
      observeState s co 1 = s.x 1 + co * s.q 1 ∧
      observeState s co 2 = s.x 2 + co * s.q 2 ∧
      observeState s co 3 = s.x 0 - co * s.q 0 ∧
      observeState s co 4 = s.x 1 - co * s.q 1 ∧
      observeState s co 5 = s.x 2 - co * s.q 2) ∧
    observeState ⟨![1, 2, 3], 0, 0, ![1, 0, 0], 0, 0⟩ 1 = ![2, 2, 3, 0, 2, 3] := by
  constructor
  · intro s co
    refine ⟨rfl, rfl, rfl, rfl, rfl, rfl⟩
  · funext i
    fin_cases i <;> norm_num [observeState, packObservation]

/-- C8: the evolution scenario of §8 of the spec: starting from
`s = (1,2,3, 4,5,6, 0, e₁, e₂, 0)` with `dt = 1`, the evolved state has
position `(5,7,9)`, velocity `(4,5,6)`, direction `(cos 1, sin 1, 0)` and
angular velocity `(−sin 1, cos 1, 0)` (exactly, in the real idealisation). -/
theorem claim_C8_evolve :
    evolveState ⟨![1, 2, 3], ![4, 5, 6], 0, ![1, 0, 0], ![0, 1, 0], 0⟩ 1 =
      ⟨![5, 7, 9], ![4, 5, 6], 0, ![Real.cos 1, Real.sin 1, 0],
        ![-Real.sin 1, Real.cos 1, 0], 0⟩ := by
  have harg : (1 : ℝ) • (![0, 1, 0] : Vec3) + (0.5 * 1 * 1 : ℝ) • (0 : Vec3)
      = ![0, 1, 0] := by
    funext i; simp
  have hc : cross (![1, 0, 0] : Vec3) ![0, 1, 0] = ![0, 0, 1] := by
    refine vec3_ext ?_ ?_ ?_ <;> norm_num [cross]
  have hnormc : norm (![0, 0, 1] : Vec3) = 1 := by
    rw [norm, show dot (![0, 0, 1] : Vec3) ![0, 0, 1] = 1 by norm_num [dot],
      Real.sqrt_one]
  have hrot : ∀ p : Vec3, rotApply ![0, 0, 1] p =
      rotAux (Real.cos 1) (Real.sin 1) ![0, 0, 1] p := by
    intro p
    rw [show rotApply ![0, 0, 1] p = if norm (![0, 0, 1] : Vec3) = 0 then p else
        rotAux (Real.cos (norm (![0, 0, 1] : Vec3)))
          (Real.sin (norm (![0, 0, 1] : Vec3)))
          ((norm (![0, 0, 1] : Vec3))⁻¹ • (![0, 0, 1] : Vec3)) p from rfl,
      hnormc, if_neg one_ne_zero, inv_one, one_smul]
  have hq : rotAux (Real.cos 1) (Real.sin 1) ![0, 0, 1] ![1, 0, 0]
      = ![Real.cos 1, Real.sin 1, 0] := by
    refine vec3_ext ?_ ?_ ?_ <;> norm_num [rotAux, cross, dot]
  have hwarg : (![0, 1, 0] : Vec3) + (1 : ℝ) • (0 : Vec3) = ![0, 1, 0] := by
    funext i; simp
  have hw : rotAux (Real.cos 1) (Real.sin 1) ![0, 0, 1] ![0, 1, 0]
      = ![-Real.sin 1, Real.cos 1, 0] := by
    refine vec3_ext ?_ ?_ ?_ <;> norm_num [rotAux, cross, dot]
  have hu : rotAux (Real.cos 1) (Real.sin 1) ![0, 0, 1] (0 : Vec3) = 0 := by
    refine vec3_ext ?_ ?_ ?_ <;> norm_num [rotAux, cross, dot]
  have hx : (![1, 2, 3] : Vec3) + (1 : ℝ) • ![4, 5, 6] +
      (0.5 * 1 * 1 : ℝ) • (0 : Vec3) = ![5, 7, 9] := by
    refine vec3_ext ?_ ?_ ?_ <;> norm_num
  have hv : (![4, 5, 6] : Vec3) + (1 : ℝ) • (0 : Vec3) = ![4, 5, 6] := by
    funext i; simp
  show packGlobal _ _ _ _ _ _ = _
  rw [show (⟨![1, 2, 3], ![4, 5, 6], 0, ![1, 0, 0], ![0, 1, 0], 0⟩ :
      State).q = ![1, 0, 0] from rfl]
  rw [harg, hc, hx, hv, hwarg, hrot, hrot, hrot, hq, hw, hu]
  have hq1 : dot (![Real.cos 1, Real.sin 1, 0] : Vec3)
      ![Real.cos 1, Real.sin 1, 0] = 1 := by
    show Real.cos 1 * Real.cos 1 + Real.sin 1 * Real.sin 1 + 0 * 0 = 1
    linear_combination Real.sin_sq_add_cos_sq 1
  have hnq : norm (![Real.cos 1, Real.sin 1, 0] : Vec3) = 1 := by
    rw [norm, hq1, Real.sqrt_one]
  simp only [packGlobal, hnq, inv_one, one_smul]
  refine State.ext rfl rfl rfl rfl ?_ ?_
  · show (![-Real.sin 1, Real.cos 1, 0] : Vec3) -
      dot ![-Real.sin 1, Real.cos 1, 0] ![Real.cos 1, Real.sin 1, 0] •
        ![Real.cos 1, Real.sin 1, 0] = ![-Real.sin 1, Real.cos 1, 0]
    rw [show dot (![-Real.sin 1, Real.cos 1, 0] : Vec3)
        ![Real.cos 1, Real.sin 1, 0] = 0 by
      show -Real.sin 1 * Real.cos 1 + Real.cos 1 * Real.sin 1 + 0 * 0 = 0
      ring, zero_smul, sub_zero]
  · show (0 : Vec3) - dot 0 ![Real.cos 1, Real.sin 1, 0] •
        ![Real.cos 1, Real.sin 1, 0] = 0
    rw [show dot (0 : Vec3) ![Real.cos 1, Real.sin 1, 0] = 0 by
      norm_num [dot], zero_smul, sub_zero]

-- ---------------------------------------------------------------------------
-- The unscented transform of `unscented.py`.

/-- Read entry `k` of row `i` of `S`; sigma-point construction only reads
indices `k < d`, so out-of-range reads (never exercised) return `0`. -/
def colGet {d : ℕ} (S : Matrix (Fin d) (Fin d) ℝ) (i : Fin d) (k : ℕ) : ℝ :=
  if hk : k < d then S i ⟨k, hk⟩ else 0

/-- `scipy.linalg.sqrtm` on the positive-semidefinite matrices the filter
feeds it: the principal (positive semidefinite) matrix square root.  The
`numpy.real` cast in the source is the identity here because the principal
square root of a real PSD matrix is real. -/
noncomputable def sqrtm {d : ℕ} (A : Matrix (Fin d) (Fin d) ℝ) :
    Matrix (Fin d) (Fin d) ℝ :=
  if h : A.PosSemidef then h.sqrt else 0

/-- Column `j` of the sigma-point matrix built by
`unscented.sigmas_from_stats`: column `0` is the mean; column `2k+1` adds,
and column `2k+2` subtracts, column `k` of the matrix square root
(`sigmas[:, 1::2] += sqrt_Q; sigmas[:, 2::2] -= sqrt_Q`). -/
def sigCol {d : ℕ} (x : Fin d → ℝ) (S : Matrix (Fin d) (Fin d) ℝ) (j : ℕ) :
    Fin d → ℝ :=
  fun i => x i +
    (if j = 0 then 0 else
      if j % 2 = 1 then colGet S i (j / 2) else -colGet S i (j / 2 - 1))

/-- Weight `j` of `unscented.sigmas_from_stats`: `h/(h+M)` for the mean
column, `1/(2(h+M))` for every other column. -/
noncomputable def sigWeight (d : ℕ) (sp : ℝ) (j : ℕ) : ℝ :=
  if j = 0 then sp / (sp + d) else 1 / (2 * (sp + d))

/-- `unscented.sigmas_from_stats(x, P, h)`: the `2d+1` sigma columns (as a
`ℕ`-indexed family; consumers read columns `0 ≤ j < 2d+1`) and weights. -/
noncomputable def sigmasFromStats {d : ℕ} (x : Fin d → ℝ)
    (P : Matrix (Fin d) (Fin d) ℝ) (sp : ℝ) :
    (ℕ → Fin d → ℝ) × (ℕ → ℝ) :=
  (sigCol x (sqrtm (((d : ℝ) + sp) • P)), sigWeight d sp)

/-- `unscented.stats_from_sigmas` on `N` columns: `numpy.average` (weighted
mean, normalised by the weight sum) and `numpy.cov(..., aweights=weights,
bias=1)` (weighted population covariance about the weighted mean,
normalised by the weight sum). -/
noncomputable def statsFromSigmas {d : ℕ} (sig : ℕ → Fin d → ℝ) (w : ℕ → ℝ)
    (N : ℕ) : (Fin d → ℝ) × Matrix (Fin d) (Fin d) ℝ :=
  let W := ∑ j ∈ Finset.range N, w j
  let mean : Fin d → ℝ := fun i => (∑ j ∈ Finset.range N, w j * sig j i) / W
  (mean,
   Matrix.of fun i k =>
     (∑ j ∈ Finset.range N, w j * (sig j i - mean i) * (sig j k - mean k)) / W)

/-- Splitting a sum over `2n+1` indices into the head and the `n`
odd/even pairs that the sigma-point layout uses. -/
theorem sum_range_odd_even (f : ℕ → ℝ) (n : ℕ) :
    ∑ j ∈ Finset.range (2 * n + 1), f j =
      f 0 + ∑ k ∈ Finset.range n, (f (2 * k + 1) + f (2 * k + 2)) := by
  induction n with
  | zero => simp
  | succ m ih =>
      have h1 : 2 * (m + 1) + 1 = (2 * m + 1) + 1 + 1 := by ring
      rw [h1, Finset.sum_range_succ, Finset.sum_range_succ, ih,
        Finset.sum_range_succ]
      have e1 : 2 * m + 1 + 1 = 2 * m + 2 := by ring
      rw [e1]
      ring

theorem sigWeight_zero (d : ℕ) (sp : ℝ) : sigWeight d sp 0 = sp / (sp + d) :=
  if_pos rfl

theorem sigWeight_ne (d : ℕ) (sp : ℝ) {j : ℕ} (hj : j ≠ 0) :
    sigWeight d sp j = 1 / (2 * (sp + d)) := if_neg hj

theorem sigCol_zero {d : ℕ} (x : Fin d → ℝ) (S : Matrix (Fin d) (Fin d) ℝ) :
    sigCol x S 0 = x := by
  funext i
  simp [sigCol]

theorem sigCol_odd {d : ℕ} (x : Fin d → ℝ) (S : Matrix (Fin d) (Fin d) ℝ)
    (k : ℕ) : sigCol x S (2 * k + 1) = fun i => x i + colGet S i k := by
  funext i
  simp only [sigCol]
  rw [if_neg (by omega : ¬(2 * k + 1 = 0)),
    if_pos (by omega : (2 * k + 1) % 2 = 1),
    show (2 * k + 1) / 2 = k by omega]

theorem sigCol_even {d : ℕ} (x : Fin d → ℝ) (S : Matrix (Fin d) (Fin d) ℝ)
    (k : ℕ) : sigCol x S (2 * k + 2) = fun i => x i - colGet S i k := by
  funext i
  simp only [sigCol]
  rw [if_neg (by omega : ¬(2 * k + 2 = 0)),
    if_neg (by omega : ¬((2 * k + 2) % 2 = 1)),
    show (2 * k + 2) / 2 - 1 = k by omega, ← sub_eq_add_neg]

/-- The unscented weights over the `2d+1` columns sum to `1`. -/
theorem sigWeight_sum (d : ℕ) (sp : ℝ) (hsp : 0 < sp) :
    ∑ j ∈ Finset.range (2 * d + 1), sigWeight d sp j = 1 := by
  have hd : (0 : ℝ) < sp + d := by positivity
  rw [sum_range_odd_even, sigWeight_zero,
    Finset.sum_congr rfl (fun k _ => by
      rw [sigWeight_ne d sp (by omega : (2 * k + 1 : ℕ) ≠ 0),
        sigWeight_ne d sp (by omega : (2 * k + 2 : ℕ) ≠ 0)]),
    Finset.sum_const, Finset.card_range, nsmul_eq_mul]
  field_simp
  ring

theorem sigCol_odd_apply {d : ℕ} (x : Fin d → ℝ) (S : Matrix (Fin d) (Fin d) ℝ)
    (k : ℕ) (i : Fin d) : sigCol x S (2 * k + 1) i = x i + colGet S i k := by
  rw [sigCol_odd]

theorem sigCol_even_apply {d : ℕ} (x : Fin d → ℝ) (S : Matrix (Fin d) (Fin d) ℝ)
    (k : ℕ) (i : Fin d) : sigCol x S (2 * k + 2) i = x i - colGet S i k := by
  rw [sigCol_even]

/-- The weighted mean of the sigma columns recovers the input mean (for any
square-root matrix, by pairwise cancellation). -/
theorem sigCol_weighted_mean {d : ℕ} (x : Fin d → ℝ)
    (S : Matrix (Fin d) (Fin d) ℝ) (sp : ℝ) (hsp : 0 < sp) (i : Fin d) :
    ∑ j ∈ Finset.range (2 * d + 1), sigWeight d sp j * sigCol x S j i = x i := by
  have hd : (0 : ℝ) < sp + d := by positivity
  have hd' : sp + (d : ℝ) ≠ 0 := ne_of_gt hd
  have hpair : ∀ k : ℕ,
      sigWeight d sp (2 * k + 1) * sigCol x S (2 * k + 1) i +
        sigWeight d sp (2 * k + 2) * sigCol x S (2 * k + 2) i =
      1 / (sp + d) * x i := by
    intro k
    rw [sigWeight_ne d sp (by omega : (2 * k + 1 : ℕ) ≠ 0),
      sigWeight_ne d sp (by omega : (2 * k + 2 : ℕ) ≠ 0),
      sigCol_odd_apply, sigCol_even_apply]
    field_simp
    ring
  rw [sum_range_odd_even, sigWeight_zero, sigCol_zero,
    Finset.sum_congr rfl (fun k _ => hpair k),
    Finset.sum_const, Finset.card_range, nsmul_eq_mul]
  field_simp
  ring

theorem posSemidef_smul {d : ℕ} {P : Matrix (Fin d) (Fin d) ℝ}
    (hP : P.PosSemidef) {c : ℝ} (hc : 0 ≤ c) : (c • P).PosSemidef := by
  constructor
  · show (c • P)ᴴ = c • P
    rw [Matrix.conjTranspose_smul, star_trivial, hP.1]
  · intro v
    rw [Matrix.smul_mulVec_assoc, Matrix.dotProduct_smul, smul_eq_mul]
    exact mul_nonneg hc (hP.2 v)

theorem sqrtm_mul_self {d : ℕ} {A : Matrix (Fin d) (Fin d) ℝ}
    (hA : A.PosSemidef) : sqrtm A * sqrtm A = A := by
  rw [sqrtm, dif_pos hA]
  exact hA.sqrt_mul_self

theorem sqrtm_transpose {d : ℕ} {A : Matrix (Fin d) (Fin d) ℝ}
    (hA : A.PosSemidef) : (sqrtm A)ᵀ = sqrtm A := by
  rw [sqrtm, dif_pos hA]
  have h := hA.posSemidef_sqrt.1
  ext i j
  have := congrFun (congrFun h i) j
  simpa [Matrix.conjTranspose_apply] using this

/-- The weighted population covariance of the sigma columns recovers `P`:
each odd/even pair contributes twice the outer product of a column of the
square root, and the square root is symmetric with square `(d+sp)·P`. -/
theorem sigCol_weighted_cov {d : ℕ} (x : Fin d → ℝ)
    (P : Matrix (Fin d) (Fin d) ℝ) (sp : ℝ) (hP : P.PosSemidef) (hsp : 0 < sp)
    (i k : Fin d) :
    ∑ j ∈ Finset.range (2 * d + 1),
        sigWeight d sp j * (sigCol x (sqrtm (((d : ℝ) + sp) • P)) j i - x i) *
          (sigCol x (sqrtm (((d : ℝ) + sp) • P)) j k - x k) = P i k := by
  have hd : (0 : ℝ) < sp + d := by positivity
  have hd' : sp + (d : ℝ) ≠ 0 := ne_of_gt hd
  have hA : (((d : ℝ) + sp) • P).PosSemidef :=
    posSemidef_smul hP (by positivity)
  have hpair : ∀ m : ℕ,
      sigWeight d sp (2 * m + 1) *
          (sigCol x (sqrtm (((d : ℝ) + sp) • P)) (2 * m + 1) i - x i) *
          (sigCol x (sqrtm (((d : ℝ) + sp) • P)) (2 * m + 1) k - x k) +
        sigWeight d sp (2 * m + 2) *
          (sigCol x (sqrtm (((d : ℝ) + sp) • P)) (2 * m + 2) i - x i) *
          (sigCol x (sqrtm (((d : ℝ) + sp) • P)) (2 * m + 2) k - x k) =
      1 / (sp + d) * (colGet (sqrtm (((d : ℝ) + sp) • P)) i m *
        colGet (sqrtm (((d : ℝ) + sp) • P)) k m) := by
    intro m
    rw [sigWeight_ne d sp (by omega : (2 * m + 1 : ℕ) ≠ 0),
      sigWeight_ne d sp (by omega : (2 * m + 2 : ℕ) ≠ 0),
      sigCol_odd_apply, sigCol_odd_apply, sigCol_even_apply, sigCol_even_apply]
    field_simp
    ring
  rw [sum_range_odd_even, sigWeight_zero]
  rw [show sigCol x (sqrtm (((d : ℝ) + sp) • P)) 0 i - x i = 0 by
    rw [sigCol_zero]; ring]
  rw [Finset.sum_congr rfl (fun m _ => hpair m), ← Finset.mul_sum]
  have hsum : ∑ m ∈ Finset.range d,
      colGet (sqrtm (((d : ℝ) + sp) • P)) i m *
        colGet (sqrtm (((d : ℝ) + sp) • P)) k m =
      (sqrtm (((d : ℝ) + sp) • P) * (sqrtm (((d : ℝ) + sp) • P))ᵀ) i k := by
    rw [Matrix.mul_apply,
      ← Fin.sum_univ_eq_sum_range (fun m =>
        colGet (sqrtm (((d : ℝ) + sp) • P)) i m *
          colGet (sqrtm (((d : ℝ) + sp) • P)) k m) d]
    refine Finset.sum_congr rfl (fun m _ => ?_)
    rw [colGet, dif_pos m.isLt, colGet, dif_pos m.isLt, Matrix.transpose_apply]
  rw [hsum, sqrtm_transpose hA, sqrtm_mul_self hA, Matrix.smul_apply,
    smul_eq_mul]
  field_simp
  ring

/-- C2: for every mean `x`, positive-semidefinite covariance `P` and
spread `h > 0`, `stats_from_sigmas(sigmas_from_stats(x, P, h))` returns
`(x, P)` exactly: the weighted mean of the sigma points is `x` and their
weighted population covariance is `P`. -/
theorem claim_C2_sigma_roundtrip {d : ℕ} (x : Fin d → ℝ)
    (P : Matrix (Fin d) (Fin d) ℝ) (sp : ℝ) (hP : P.PosSemidef) (hsp : 0 < sp) :
    statsFromSigmas (sigmasFromStats x P sp).1 (sigmasFromStats x P sp).2
      (2 * d + 1) = (x, P) := by
  have hW : ∑ j ∈ Finset.range (2 * d + 1), (sigmasFromStats x P sp).2 j = 1 :=
    sigWeight_sum d sp hsp
  have hmean : ∀ i : Fin d,
      ∑ j ∈ Finset.range (2 * d + 1),
        (sigmasFromStats x P sp).2 j * (sigmasFromStats x P sp).1 j i = x i :=
    fun i => sigCol_weighted_mean x _ sp hsp i
  refine Prod.ext ?_ ?_
  · show (fun i => (∑ j ∈ Finset.range (2 * d + 1),
      (sigmasFromStats x P sp).2 j * (sigmasFromStats x P sp).1 j i) /
        (∑ j ∈ Finset.range (2 * d + 1), (sigmasFromStats x P sp).2 j)) = x
    funext i
    rw [hW, hmean i, div_one]
  · show Matrix.of (fun i k => _) = P
    ext i k
    show (∑ j ∈ Finset.range (2 * d + 1),
        (sigmasFromStats x P sp).2 j *
          ((sigmasFromStats x P sp).1 j i - _) *
          ((sigmasFromStats x P sp).1 j k - _)) /
        (∑ j ∈ Finset.range (2 * d + 1), (sigmasFromStats x P sp).2 j) = P i k
    simp only [hW, div_one, hmean]
    exact sigCol_weighted_cov x P sp hP hsp i k

/-- C2 witness: a concrete PSD covariance in dimension 1. -/
theorem claim_C2_witness :
    (Matrix.diagonal ![(4 : ℝ)]).PosSemidef ∧ (0 : ℝ) < 1 ∧
    statsFromSigmas
        (sigmasFromStats ![2] (Matrix.diagonal ![(4 : ℝ)]) 1).1
        (sigmasFromStats ![2] (Matrix.diagonal ![(4 : ℝ)]) 1).2 3 =
      (![2], Matrix.diagonal ![(4 : ℝ)]) := by
  have hP : (Matrix.diagonal ![(4 : ℝ)]).PosSemidef := by
    refine Matrix.PosSemidef.diagonal ?_
    intro i
    fin_cases i
    norm_num
  exact ⟨hP, one_pos,
    claim_C2_sigma_roundtrip ![2] (Matrix.diagonal ![(4 : ℝ)]) 1 hP one_pos⟩

/-- C7: `sigmas_from_stats` returns `2M+1` weights whose first entry is
`h/(h+M)`, whose other entries are `1/(2(h+M))`, and which sum to `1`. -/
theorem claim_C7_weights {d : ℕ} (x : Fin d → ℝ)
    (P : Matrix (Fin d) (Fin d) ℝ) (sp : ℝ) (hsp : 0 < sp) :
    (sigmasFromStats x P sp).2 0 = sp / (sp + d) ∧
    (∀ j : ℕ, j ≠ 0 → (sigmasFromStats x P sp).2 j = 1 / (2 * (sp + d))) ∧
    ∑ j ∈ Finset.range (2 * d + 1), (sigmasFromStats x P sp).2 j = 1 :=
  ⟨sigWeight_zero d sp, fun _ hj => sigWeight_ne d sp hj, sigWeight_sum d sp hsp⟩

/-- C7 witness: the weights at `d = 1`, `h = 1` sum to `1`. -/
theorem claim_C7_witness :
    (0 : ℝ) < 1 ∧
    ∑ j ∈ Finset.range 3,
      (sigmasFromStats ![(0 : ℝ)] (0 : Matrix (Fin 1) (Fin 1) ℝ) 1).2 j = 1 :=
  ⟨one_pos, (claim_C7_weights ![(0 : ℝ)] 0 1 one_pos).2.2⟩

-- ---------------------------------------------------------------------------
-- The Riemannian UKF core of `riemannian_ukf.py`.  States cross the
-- 18-vector interface of the unscented transform through the evident
-- packing bijection (`pack_local_state`/`unpack_state` in the source).

/-- `pack_local_state`: lay the six 3-vectors out as an 18-vector. -/
def stateToVec (s : State) : Fin 18 → ℝ :=
  ![s.x 0, s.x 1, s.x 2, s.v 0, s.v 1, s.v 2, s.a 0, s.a 1, s.a 2,
    s.q 0, s.q 1, s.q 2, s.w 0, s.w 1, s.w 2, s.u 0, s.u 1, s.u 2]

/-- `unpack_state`: slice an 18-vector into the six 3-vectors. -/
def vecToState (f : Fin 18 → ℝ) : State :=
  ⟨![f 0, f 1, f 2], ![f 3, f 4, f 5], ![f 6, f 7, f 8],
    ![f 9, f 10, f 11], ![f 12, f 13, f 14], ![f 15, f 16, f 17]⟩

/-- Total component accessor for a 3-vector (indices `≥ 3` are never read). -/
def vcomp (v : Vec3) (k : ℕ) : ℝ := if hk : k < 3 then v ⟨k, hk⟩ else 0

/-- The projector built by `statespace.local_transition_cov`:
`P = numpy.eye(18)` with `outer(q, q)` subtracted from the
`[12:15)×[12:15)` and `[15:18)×[15:18)` diagonal blocks. -/
def projMat (s : State) : Matrix (Fin 18) (Fin 18) ℝ :=
  Matrix.of fun i j =>
    (if i = j then 1 else 0) -
      (if 12 ≤ (i : ℕ) ∧ (i : ℕ) < 15 ∧ 12 ≤ (j : ℕ) ∧ (j : ℕ) < 15 then
        vcomp s.q ((i : ℕ) - 12) * vcomp s.q ((j : ℕ) - 12) else 0) -
      (if 15 ≤ (i : ℕ) ∧ 15 ≤ (j : ℕ) then
        vcomp s.q ((i : ℕ) - 15) * vcomp s.q ((j : ℕ) - 15) else 0)

/-- `statespace.local_transition_cov(s, Q) = P @ Q @ P.T`. -/
def localTransitionCov (s : State) (Q : Matrix (Fin 18) (Fin 18) ℝ) :
    Matrix (Fin 18) (Fin 18) ℝ :=
  projMat s * Q * (projMat s)ᵀ

/-- The covariance term of `riemannian_ukf.predict`: sigma points about the
local identity (the zero vector), lifted into the global chart at `x`,
evolved by `dt`, rebased into the chart at `x_t = evolve_state(x, dt)`, and
reduced to their weighted covariance. -/
noncomputable def predictSigmaCov (x : State) (P : Matrix (Fin 18) (Fin 18) ℝ)
    (sp dt : ℝ) : Matrix (Fin 18) (Fin 18) ℝ :=
  (statsFromSigmas
    (fun j => stateToVec (globalToLocal (evolveState x dt)
      (evolveState
        (localToGlobal x (vecToState ((sigmasFromStats (fun _ => 0) P sp).1 j)))
        dt)))
    (sigmasFromStats (fun _ => (0 : ℝ)) P sp).2 (2 * 18 + 1)).2

/-- `riemannian_ukf.predict`: deterministic mean propagation plus the
rebased sigma covariance and `dt`-scaled projected process noise. -/
noncomputable def predict (x : State) (P Q : Matrix (Fin 18) (Fin 18) ℝ)
    (dt sp : ℝ) : State × Matrix (Fin 18) (Fin 18) ℝ :=
  (evolveState x dt,
   predictSigmaCov x P sp dt + dt • localTransitionCov (evolveState x dt) Q)

/-- Observation sigma column `j` of `riemannian_ukf.update`. -/
noncomputable def updObsCol (x : State) (P : Matrix (Fin 18) (Fin 18) ℝ)
    (sp co : ℝ) (j : ℕ) : Fin 6 → ℝ :=
  observeState
    (localToGlobal x (vecToState ((sigmasFromStats (fun _ => (0 : ℝ)) P sp).1 j)))
    co

/-- The innovation covariance `S = cov(os) + R` of `riemannian_ukf.update`. -/
noncomputable def updInnovCov (x : State) (P : Matrix (Fin 18) (Fin 18) ℝ)
    (R : Matrix (Fin 6) (Fin 6) ℝ) (sp co : ℝ) : Matrix (Fin 6) (Fin 6) ℝ :=
  (statsFromSigmas (updObsCol x P sp co)
    (sigmasFromStats (fun _ => (0 : ℝ)) P sp).2 (2 * 18 + 1)).2 + R

/-- The cross covariance `C = local_sigmas @ (w * os).T`. -/
noncomputable def updCrossCov (x : State) (P : Matrix (Fin 18) (Fin 18) ℝ)
    (sp co : ℝ) : Matrix (Fin 18) (Fin 6) ℝ :=
  Matrix.of fun i k =>
    ∑ j ∈ Finset.range (2 * 18 + 1),
      (sigmasFromStats (fun _ => (0 : ℝ)) P sp).1 j i *
        ((sigmasFromStats (fun _ => (0 : ℝ)) P sp).2 j * updObsCol x P sp co j k)

/-- The Kalman gain `K = C @ numpy.linalg.inv(S)`; the inverse is
Mathlib's matrix inverse (the exact inverse whenever `S` is invertible). -/
noncomputable def kalmanGain (x : State) (P : Matrix (Fin 18) (Fin 18) ℝ)
    (R : Matrix (Fin 6) (Fin 6) ℝ) (sp co : ℝ) : Matrix (Fin 18) (Fin 6) ℝ :=
  updCrossCov x P sp co * (updInnovCov x P R sp co)⁻¹

/-- `riemannian_ukf.update`: innovation from `observe_state(x)`, posterior
state `local_to_global(x, K·y)`, covariance `P − K S Kᵀ` symmetrised and
rebased into the chart at the posterior state. -/
noncomputable def update (x : State) (P : Matrix (Fin 18) (Fin 18) ℝ)
    (R : Matrix (Fin 6) (Fin 6) ℝ) (z : Fin 6 → ℝ) (sp co : ℝ) :
    State × Matrix (Fin 18) (Fin 18) ℝ :=
  let K := kalmanGain x P R sp co
  let newX := localToGlobal x (vecToState (K.mulVec (z - observeState x co)))
  let P1 := P - K * updInnovCov x P R sp co * Kᵀ
  let newP := (0.5 : ℝ) • (P1 + P1ᵀ)
  (newX,
   (statsFromSigmas
      (fun j => stateToVec (globalToLocal newX
        (localToGlobal x
          (vecToState ((sigmasFromStats (fun _ => (0 : ℝ)) newP sp).1 j)))))
      (sigmasFromStats (fun _ => (0 : ℝ)) newP sp).2 (2 * 18 + 1)).2)

/-- A Rodrigues rotation maps nonzero vectors to nonzero vectors. -/
theorem rotApply_ne_zero (c : Vec3) {p : Vec3} (hp : p ≠ 0) :
    rotApply c p ≠ 0 := by
  intro hcon
  apply hp
  have h := rotApply_dot_self c p
  rw [hcon] at h
  refine (dot_self_eq_zero_iff p).mp ?_
  rw [← h]
  simp [dot]

/-- C3: for every input state with nonzero direction component, the states
returned by `predict` and by `update` satisfy the manifold invariants:
`‖q‖ = 1`, `w·q = 0` and `u·q = 0`. -/
theorem claim_C3_manifold_invariants (x : State)
    (P Q : Matrix (Fin 18) (Fin 18) ℝ) (R : Matrix (Fin 6) (Fin 6) ℝ)
    (z : Fin 6 → ℝ) (dt sp co : ℝ) (hq : x.q ≠ 0) :
    onManifold (predict x P Q dt sp).1 ∧ onManifold (update x P R z sp co).1 := by
  constructor
  · exact packGlobal_onManifold _ _ _ _ _ _ (rotApply_ne_zero _ hq)
  · exact packGlobal_onManifold _ _ _ _ _ _ (rotApply_ne_zero _ hq)

/-- C3 witness: a concrete state with direction `e₁` and zero noise. -/
theorem claim_C3_witness :
    (⟨0, 0, 0, ![1, 0, 0], 0, 0⟩ : State).q ≠ 0 ∧
    (onManifold (predict ⟨0, 0, 0, ![1, 0, 0], 0, 0⟩ 0 0 0 1).1 ∧
      onManifold (update ⟨0, 0, 0, ![1, 0, 0], 0, 0⟩ 0 0 0 1 1).1) := by
  have hq : (⟨0, 0, 0, ![1, 0, 0], 0, 0⟩ : State).q ≠ 0 := by
    intro h
    have h0 := congrFun h 0
    norm_num at h0
  exact ⟨hq, claim_C3_manifold_invariants _ 0 0 0 0 0 1 1 hq⟩

/-- C5: the update step's posterior state is
`local_to_global(x, K·(z − observe_state(x)))` — the innovation is taken
against the deterministic observation of the current estimate, not the
sigma-weighted observation mean. -/
theorem claim_C5_update_innovation (x : State) (P : Matrix (Fin 18) (Fin 18) ℝ)
    (R : Matrix (Fin 6) (Fin 6) ℝ) (z : Fin 6 → ℝ) (sp co : ℝ) :
    (update x P R z sp co).1 =
      localToGlobal x (vecToState
        ((kalmanGain x P R sp co).mulVec (z - observeState x co))) := rfl

/-- The projector of `local_transition_cov`, as §4.1 of the spec describes
it: the identity matrix with the `w×w` and `u×u` diagonal blocks replaced
by `I₃ − q·qᵀ`. -/
def specProj (s : State) : Matrix (Fin 18) (Fin 18) ℝ :=
  Matrix.of fun i j =>
    if 12 ≤ (i : ℕ) ∧ (i : ℕ) < 15 ∧ 12 ≤ (j : ℕ) ∧ (j : ℕ) < 15 then
      (if i = j then 1 else 0) - vcomp s.q ((i : ℕ) - 12) * vcomp s.q ((j : ℕ) - 12)
    else if 15 ≤ (i : ℕ) ∧ 15 ≤ (j : ℕ) then
      (if i = j then 1 else 0) - vcomp s.q ((i : ℕ) - 15) * vcomp s.q ((j : ℕ) - 15)
    else if i = j then 1 else 0

/-- The source's subtract-two-blocks construction agrees with the spec's
block-replacement description. -/
theorem projMat_eq_specProj (s : State) : projMat s = specProj s := by
  ext i j
  simp only [projMat, specProj, Matrix.of_apply]
  split_ifs <;> first | ring1 | (exfalso; omega)

/-- C6: the covariance returned by `predict` is the rebased sigma-point
covariance plus `dt · local_transition_cov(x_t, Q)` — linear in `dt` — and
`local_transition_cov(s, Q) = P·Q·Pᵀ` where `P` is the identity with the
`w×w` and `u×u` blocks replaced by `I₃ − q·qᵀ`. -/
theorem claim_C6_predict_cov (x : State) (P Q : Matrix (Fin 18) (Fin 18) ℝ)
    (dt sp : ℝ) :
    (predict x P Q dt sp).2 =
      predictSigmaCov x P sp dt +
        dt • (specProj (evolveState x dt) * Q * (specProj (evolveState x dt))ᵀ) ∧
    ∀ (s : State) (Q' : Matrix (Fin 18) (Fin 18) ℝ),
      localTransitionCov s Q' = specProj s * Q' * (specProj s)ᵀ := by
  constructor
  · show predictSigmaCov x P sp dt + dt • localTransitionCov (evolveState x dt) Q = _
    rw [localTransitionCov, projMat_eq_specProj]
  · intro s Q'
    rw [localTransitionCov, projMat_eq_specProj]

-- ---------------------------------------------------------------------------
-- The filter facade of `ukf.py`.

/-- `UKF._linear_angular_ratio`. -/
noncomputable def linearAngularRatio (tipOffset : ℝ) : ℝ := (1 / tipOffset) ^ 2

/-- `UKF.estimate_initial_state`: midpoint and normalised half-difference
of the two coil readings, zero velocities and rates, and the diagonal
initial covariance built with `Px = Pv = Pu = 1` (so the first nine
diagonal entries are `1` and the angular nine are scaled by
`c = (1/tip_offset)²`). -/
noncomputable def estimateInitialState (tipOffset : ℝ) (dist prox : Vec3) :
    State × Matrix (Fin 18) (Fin 18) ℝ :=
  let p := (0.5 : ℝ) • (dist + prox)
  let dRaw := (0.5 : ℝ) • (dist - prox)
  let dd := (norm dRaw)⁻¹ • dRaw
  (⟨p, 0, 0, dd, 0, 0⟩,
   Matrix.diagonal fun i =>
     if (i : ℕ) < 9 then (1 : ℝ) else linearAngularRatio tipOffset)

/-- C10: `estimate_initial_state` divides by `‖½(distal − proximal)‖` with
no guard: for `distal ≠ proximal` the divisor is nonzero and the returned
direction block is a unit vector; for `distal = proximal` the divisor is
exactly zero (the division-by-zero branch). -/
theorem claim_C10_initial_state (tipOffset : ℝ) (dist prox : Vec3) :
    (dist ≠ prox →
      norm ((0.5 : ℝ) • (dist - prox)) ≠ 0 ∧
      norm (estimateInitialState tipOffset dist prox).1.q = 1) ∧
    (dist = prox → norm ((0.5 : ℝ) • (dist - prox)) = 0) := by
  constructor
  · intro hne
    have hd0 : (0.5 : ℝ) • (dist - prox) ≠ 0 := by
      intro hcon
      apply hne
      have hsub : dist - prox = 0 := by
        funext i
        have h := congrFun hcon i
        simp only [Pi.smul_apply, Pi.sub_apply, smul_eq_mul, Pi.zero_apply] at h ⊢
        linarith
      have := sub_eq_zero.mp hsub
      exact this
    have hn : norm ((0.5 : ℝ) • (dist - prox)) ≠ 0 := fun h =>
      hd0 ((norm_eq_zero_iff _).mp h)
    refine ⟨hn, ?_⟩
    show norm ((norm ((0.5 : ℝ) • (dist - prox)))⁻¹ • (0.5 : ℝ) • (dist - prox)) = 1
    rw [norm_smul, abs_inv, abs_of_nonneg (norm_nonneg _)]
    field_simp
  · intro heq
    rw [heq, show (0.5 : ℝ) • (prox - prox) = 0 by rw [sub_self, smul_zero]]
    exact (norm_eq_zero_iff 0).mpr rfl

/-- C10 witness: distinct coil readings give a unit direction. -/
theorem claim_C10_witness :
    (![1, 0, 0] : Vec3) ≠ 0 ∧
    (norm ((0.5 : ℝ) • ((![1, 0, 0] : Vec3) - 0)) ≠ 0 ∧
      norm (estimateInitialState 1 ![1, 0, 0] 0).1.q = 1) := by
  have hne : (![1, 0, 0] : Vec3) ≠ 0 := by
    intro h
    have h0 := congrFun h 0
    norm_num at h0
  exact ⟨hne, (claim_C10_initial_state 1 ![1, 0, 0] 0).1 (by
    intro h
    exact hne (by rw [h]))⟩

end CatheterUKF

